import Mathlib

/-!
Shallow embedding of the client-side graph synchronization engine of the
tainted-journal repository (LocationDetailPage component): graph store,
reconciliation merge, save scheduler, local cache, connection builder and
the recursive descendant walk used by node deletion.
-/

namespace TaintedJournal

/-- Canvas position of a node. -/
structure Pos where
  x : Int
  y : Int
deriving DecidableEq, Repr

/-- A graph node as held by the store.  The persisted identity fields are
`id`, `type`, `position` and the data fields `text`, `cost`, `completed`;
`isEditing` is the presentation flag reset on load. -/
structure Node where
  id : String
  type : String
  position : Pos
  text : String
  cost : String
  completed : Bool
  isEditing : Bool
deriving DecidableEq, Repr

/-- A graph edge: id, endpoints and the data fields `text`, `completed`. -/
structure Edge where
  id : String
  source : String
  target : String
  text : String
  completed : Bool
deriving DecidableEq, Repr

/-- Longest leading run of decimal digits of a character list (the greedy
`\d+` of the id regex). -/
def digitRun : List Char → List Char
  | [] => []
  | c :: cs => if c.isDigit then c :: digitRun cs else []

/-- Decimal value of a digit list, as `parseInt` computes it. -/
def digitsToNat (ds : List Char) : Nat :=
  ds.foldl (fun acc c => acc * 10 + (c.toNat - 48)) 0

/-- Left-to-right scan of `id.match(/node-(\d+)/)`: at each position try to
match the literal `node-` followed by at least one digit; on success return
the value of the greedy digit run, otherwise keep scanning. -/
def findNodeMatch : List Char → Option Nat
  | [] => none
  | c :: rest =>
    if _h : c = 'n' then
      match rest with
      | 'o' :: 'd' :: 'e' :: '-' :: rest2 =>
        let ds := digitRun rest2
        if ds.isEmpty then findNodeMatch rest else some (digitsToNat ds)
      | _ => findNodeMatch rest
    else findNodeMatch rest

/-- Numeric suffix contributed by a node id to the counter seeding:
`match ? parseInt(match[1]) : 0`. -/
def nodeSuffix (id : String) : Nat :=
  (findNodeMatch id.toList).getD 0

/-- Decimal digit characters of a natural number (canonical rendering used
by the `node-${counter}` template). -/
def natToDigits (n : Nat) : List Char :=
  if h : n < 10 then [Char.ofNat (n + 48)]
  else natToDigits (n / 10) ++ [Char.ofNat (n % 10 + 48)]
decreasing_by
  exact Nat.div_lt_self (Nat.lt_of_lt_of_le (by norm_num) (Nat.le_of_not_lt h)) (by norm_num)

/-- The id generated for a fresh node from counter value `k`. -/
def mkNodeId (k : Nat) : String :=
  "node-" ++ String.mk (natToDigits k)

/-- `Math.max` over the numeric suffixes of a list of loaded nodes. -/
def maxSuffix (l : List Node) : Nat :=
  (l.map (fun n => nodeSuffix n.id)).foldl max 0

section DigitLemmas

theorem digitRun_all_digits (l : List Char) (h : ∀ c ∈ l, c.isDigit) :
    digitRun l = l := by
  induction l with
  | nil => rfl
  | cons c cs ih =>
    simp only [digitRun]
    rw [if_pos (h c (List.mem_cons_self c cs)), ih (fun d hd => h d (List.mem_cons_of_mem c hd))]

theorem foldl_digits (l : List Char) : ∀ init : Nat,
    l.foldl (fun acc c => acc * 10 + (c.toNat - 48)) init =
      init * 10 ^ l.length + digitsToNat l := by
  induction l with
  | nil => intro init; simp [digitsToNat]
  | cons c cs ih =>
    intro init
    simp only [List.foldl_cons, List.length_cons]
    rw [ih (init * 10 + (c.toNat - 48))]
    have : digitsToNat (c :: cs) = (c.toNat - 48) * 10 ^ cs.length + digitsToNat cs := by
      simp only [digitsToNat, List.foldl_cons]
      rw [show (0 : Nat) * 10 + (c.toNat - 48) = c.toNat - 48 by ring]
      exact (ih (c.toNat - 48)).trans rfl
    rw [this]
    ring

theorem digitsToNat_append (a b : List Char) :
    digitsToNat (a ++ b) = digitsToNat a * 10 ^ b.length + digitsToNat b := by
  simp only [digitsToNat, List.foldl_append]
  exact foldl_digits b _

theorem natToDigits_lt10 (n : Nat) (h : n < 10) : natToDigits n = [Char.ofNat (n + 48)] := by
  rw [natToDigits]
  simp [h]

theorem natToDigits_ge10 (n : Nat) (h : ¬ n < 10) :
    natToDigits n = natToDigits (n / 10) ++ [Char.ofNat (n % 10 + 48)] := by
  conv_lhs => rw [natToDigits]
  simp [h]

theorem toNat_ofNat_digit (d : Nat) (h : d < 10) : (Char.ofNat (d + 48)).toNat = d + 48 := by
  interval_cases d <;> decide

theorem isDigit_ofNat_digit (d : Nat) (h : d < 10) : (Char.ofNat (d + 48)).isDigit := by
  interval_cases d <;> decide

theorem natToDigits_digits (n : Nat) : ∀ c ∈ natToDigits n, c.isDigit := by
  induction n using Nat.strong_induction_on with
  | _ n ih =>
    by_cases h : n < 10
    · rw [natToDigits_lt10 n h]
      intro c hc
      rw [List.mem_singleton] at hc
      subst hc
      exact isDigit_ofNat_digit n h
    · rw [natToDigits_ge10 n h]
      intro c hc
      rcases List.mem_append.mp hc with hc | hc
      · exact ih (n / 10) (Nat.div_lt_self (by omega) (by norm_num)) c hc
      · rw [List.mem_singleton] at hc
        subst hc
        exact isDigit_ofNat_digit (n % 10) (Nat.mod_lt n (by norm_num))

theorem natToDigits_ne_nil (n : Nat) : natToDigits n ≠ [] := by
  by_cases h : n < 10
  · rw [natToDigits_lt10 n h]; simp
  · rw [natToDigits_ge10 n h]; simp

theorem digitsToNat_natToDigits (n : Nat) : digitsToNat (natToDigits n) = n := by
  induction n using Nat.strong_induction_on with
  | _ n ih =>
    by_cases h : n < 10
    · rw [natToDigits_lt10 n h]
      simp only [digitsToNat, List.foldl_cons, List.foldl_nil]
      rw [toNat_ofNat_digit n h]
      omega
    · rw [natToDigits_ge10 n h, digitsToNat_append]
      rw [ih (n / 10) (Nat.div_lt_self (by omega) (by norm_num))]
      simp only [digitsToNat, List.foldl_cons, List.foldl_nil, List.length_cons,
        List.length_nil, pow_one, pow_zero]
      rw [toNat_ofNat_digit (n % 10) (Nat.mod_lt n (by norm_num))]
      omega

theorem findNodeMatch_canonical (n : Nat) :
    findNodeMatch ('n' :: 'o' :: 'd' :: 'e' :: '-' :: natToDigits n) = some n := by
  rw [findNodeMatch]
  simp only [reduceDIte]
  rw [digitRun_all_digits (natToDigits n) (natToDigits_digits n)]
  have hne : (natToDigits n).isEmpty = false := by
    cases h : natToDigits n with
    | nil => exact absurd h (natToDigits_ne_nil n)
    | cons a l => rfl
  rw [hne]
  simp only [Bool.false_eq_true, if_false]
  rw [digitsToNat_natToDigits]

theorem nodeSuffix_mkNodeId (k : Nat) : nodeSuffix (mkNodeId k) = k := by
  have : (mkNodeId k).toList = 'n' :: 'o' :: 'd' :: 'e' :: '-' :: natToDigits k := by
    simp [mkNodeId, String.toList]
  rw [nodeSuffix, this, findNodeMatch_canonical]
  rfl

theorem mkNodeId_inj {j k : Nat} (h : mkNodeId j = mkNodeId k) : j = k := by
  have := nodeSuffix_mkNodeId j
  rw [h, nodeSuffix_mkNodeId] at this
  omega

end DigitLemmas

/-- Presentation decoration applied to every loaded node: the edit flag is
reset to false (the attached callbacks are transient and not part of the
durable identity). -/
def decorateNode (n : Node) : Node :=
  { n with isEditing := false }

/-- The node-collection update performed by `processGraphData`: keep the
root entry, wholesale-replace on first load (store holds at most one node)
or when loading from the local cache, otherwise merge server nodes with the
locally held versions of nodes under edit. -/
def processNodes (prev loadedRaw : List Node) (editingNodes : List String)
    (isFromLocalStorage : Bool) : List Node :=
  let loadedNodes := loadedRaw.map decorateNode
  let rootNode := prev.find? (fun n => n.id == "root")
  if prev.length ≤ 1 ∨ isFromLocalStorage = true then
    match rootNode with
    | some r => r :: loadedNodes
    | none => loadedNodes
  else
    let editing := prev.filter (fun n => decide (n.id ≠ "root" ∧ n.id ∈ editingNodes))
    let fromServer := loadedNodes.filter (fun n => decide (n.id ∉ editingNodes))
    let result := fromServer ++ editing
    match rootNode with
    | some r => r :: result
    | none => result

/-- The edge-collection update performed by `processGraphData`: wholesale
replacement when the store holds no edges or the snapshot comes from the
local cache, otherwise server edges merged with locally held edges under
edit. -/
def processEdges (prev loaded : List Edge) (editingEdges : List String)
    (isFromLocalStorage : Bool) : List Edge :=
  if prev.length = 0 ∨ isFromLocalStorage = true then loaded
  else
    (loaded.filter (fun e => decide (e.id ∉ editingEdges))) ++
      (prev.filter (fun e => decide (e.id ∈ editingEdges)))

/-- The id-counter update performed by `processGraphData`: reseeded to
`max(numeric suffix) + 1` on the wholesale-replacement path when at least
one node was loaded, untouched otherwise. -/
def processCounter (prevLength : Nat) (loadedRaw : List Node)
    (isFromLocalStorage : Bool) (counter : Nat) : Nat :=
  if (prevLength ≤ 1 ∨ isFromLocalStorage = true) ∧ loadedRaw ≠ [] then
    maxSuffix (loadedRaw.map decorateNode) + 1
  else counter

theorem maxSuffix_map_decorate (l : List Node) :
    maxSuffix (l.map decorateNode) = maxSuffix l := by
  simp only [maxSuffix, List.map_map]
  rfl

section FoldMax

theorem le_foldl_max (l : List Nat) (a : Nat) : a ≤ l.foldl max a := by
  induction l generalizing a with
  | nil => simp
  | cons x xs ih => exact le_trans (le_max_left a x) (ih (max a x))

theorem mem_le_foldl_max (l : List Nat) (a x : Nat) (h : x ∈ l) : x ≤ l.foldl max a := by
  induction l generalizing a with
  | nil => cases h
  | cons y ys ih =>
    rcases List.mem_cons.mp h with rfl | h
    · exact le_trans (le_max_right a x) (le_foldl_max ys (max a x))
    · exact ih (max a y) h

theorem nodeSuffix_le_maxSuffix (l : List Node) (n : Node) (h : n ∈ l) :
    nodeSuffix n.id ≤ maxSuffix l :=
  mem_le_foldl_max _ 0 _ (List.mem_map_of_mem (fun n => nodeSuffix n.id) h)

end FoldMax

/-- The three nodes of the first-fetch scenario. -/
def c5nodes : List Node :=
  [ { id := "node-3", type := "outcomeNode", position := ⟨0, 0⟩, text := "a",
      cost := "", completed := false, isEditing := false },
    { id := "node-7", type := "outcomeNode", position := ⟨10, 20⟩, text := "b",
      cost := "3", completed := true, isEditing := false },
    { id := "node-2", type := "outcomeNode", position := ⟨5, 9⟩, text := "c",
      cost := "", completed := false, isEditing := false } ]

/-- The two edges of the first-fetch scenario. -/
def c5edges : List Edge :=
  [ { id := "edge-node-3-node-7", source := "node-3", target := "node-7",
      text := "", completed := false },
    { id := "edge-node-3-node-2", source := "node-3", target := "node-2",
      text := "", completed := false } ]

/-- C5: after a wholesale load of a snapshot with at least one node the id
counter becomes `max(numeric suffix across loaded node ids) + 1`, every id
subsequently generated as `node-<counter>` differs from every loaded node
id, and on a first fetch of the 3-node/2-edge scenario the counter
initializes to `max(suffix) + 1 = 8`. -/
theorem counter_seeding_after_wholesale_load
    (prev loadedRaw : List Node) (isFLS : Bool) (counter : Nat)
    (hwhole : prev.length ≤ 1 ∨ isFLS = true) (hne : loadedRaw ≠ []) :
    processCounter prev.length loadedRaw isFLS counter = maxSuffix loadedRaw + 1 ∧
    (∀ j, maxSuffix loadedRaw + 1 ≤ j → ∀ n ∈ loadedRaw, mkNodeId j ≠ n.id) ∧
    (processEdges [] c5edges [] false = c5edges ∧
      processCounter 0 c5nodes false 0 = 8) := by
  refine ⟨?_, ?_, by decide, by decide⟩
  · rw [processCounter, if_pos ⟨hwhole, hne⟩, maxSuffix_map_decorate]
  · intro j hj n hn heq
    have hs : nodeSuffix n.id = j := by rw [← heq, nodeSuffix_mkNodeId]
    have hle : nodeSuffix n.id ≤ maxSuffix loadedRaw := nodeSuffix_le_maxSuffix _ _ hn
    omega

/-- Witness for C5 at the concrete first-fetch scenario. -/
theorem counter_seeding_witness :
    processCounter ([] : List Node).length c5nodes false 0 = maxSuffix c5nodes + 1 ∧
    (∀ j, maxSuffix c5nodes + 1 ≤ j → ∀ n ∈ c5nodes, mkNodeId j ≠ n.id) ∧
    (processEdges [] c5edges [] false = c5edges ∧
      processCounter 0 c5nodes false 0 = 8) :=
  counter_seeding_after_wholesale_load [] c5nodes false 0 (Or.inl (by decide)) (by decide)

section EditWindow

theorem filter_id_eq_of_nodup (l : List Node) (hnd : (l.map Node.id).Nodup)
    (r : Node) (hr : r ∈ l) (s : String) (hs : r.id = s) :
    l.filter (fun n => n.id == s) = [r] := by
  induction l with
  | nil => cases hr
  | cons a t ih =>
    rw [List.map_cons, List.nodup_cons] at hnd
    rcases List.mem_cons.mp hr with rfl | hr
    · rw [List.filter_cons, if_pos (by simp [hs])]
      have ht : t.filter (fun n => n.id == s) = [] := by
        rw [List.filter_eq_nil_iff]
        intro n hn h
        have hns : n.id = s := by simpa using h
        exact hnd.1 (hs ▸ hns ▸ List.mem_map_of_mem Node.id hn)
      rw [ht]
    · have hane : ¬ (a.id == s) = true := by
        intro h
        have has : a.id = s := by simpa using h
        have : r.id ∈ t.map Node.id := List.mem_map_of_mem Node.id hr
        exact hnd.1 (by rw [has, ← hs] at *; exact this)
      rw [List.filter_cons, if_neg hane]
      exact ih hnd.2 hr

theorem edit_window_preserved_nodes
    (prev loadedRaw : List Node) (editingN : List String) (nid : String)
    (hnd : (prev.map Node.id).Nodup) (hmem : nid ∈ editingN) (hlen : 2 ≤ prev.length) :
    (processNodes prev loadedRaw editingN false).filter (fun n => n.id == nid) =
      prev.filter (fun n => n.id == nid) := by
  have hcond : ¬(prev.length ≤ 1 ∨ (false : Bool) = true) := by
    simp only [Bool.false_eq_true, or_false]
    omega
  simp only [processNodes, if_neg hcond]
  have hserver : ((loadedRaw.map decorateNode).filter
      (fun n => decide (n.id ∉ editingN))).filter (fun n => n.id == nid) = [] := by
    rw [List.filter_eq_nil_iff]
    intro n hn h
    have hnotin : n.id ∉ editingN := by simpa using (List.mem_filter.mp hn).2
    have hid : n.id = nid := by simpa using h
    exact hnotin (hid ▸ hmem)
  have hediting : ∀ hroot : nid ≠ "root",
      (prev.filter (fun n => decide (n.id ≠ "root" ∧ n.id ∈ editingN))).filter
        (fun n => n.id == nid) = prev.filter (fun n => n.id == nid) := by
    intro hroot
    rw [List.filter_filter]
    apply List.filter_congr
    intro n _
    by_cases h : n.id = nid
    · simp [h, hroot, hmem]
    · simp [h]
  cases hroot : prev.find? (fun n => n.id == "root") with
  | none =>
    have hnone : ∀ n ∈ prev, n.id ≠ "root" := by
      intro n hn
      have := List.find?_eq_none.mp hroot n hn
      simpa using this
    by_cases hnr : nid = "root"
    · subst hnr
      rw [List.filter_append, hserver, List.nil_append]
      have h1 : (prev.filter (fun n => decide (n.id ≠ "root" ∧ n.id ∈ editingN))).filter
          (fun n => n.id == "root") = [] := by
        rw [List.filter_eq_nil_iff]
        intro n hn h
        have := (List.mem_filter.mp hn).2
        have h2 : n.id ≠ "root" := by simpa using (of_decide_eq_true this).1
        exact h2 (by simpa using h)
      have h2 : prev.filter (fun n => n.id == "root") = [] := by
        rw [List.filter_eq_nil_iff]
        intro n hn h
        exact hnone n hn (by simpa using h)
      rw [h1, h2]
    · rw [List.filter_append, hserver, List.nil_append]
      exact hediting hnr
  | some r =>
    have hrmem : r ∈ prev := List.mem_of_find?_eq_some hroot
    have hrid : r.id = "root" := by simpa using List.find?_some hroot
    by_cases hnr : nid = "root"
    · subst hnr
      rw [List.filter_cons, if_pos (by simp [hrid])]
      rw [List.filter_append, hserver, List.nil_append]
      have h1 : (prev.filter (fun n => decide (n.id ≠ "root" ∧ n.id ∈ editingN))).filter
          (fun n => n.id == "root") = [] := by
        rw [List.filter_eq_nil_iff]
        intro n hn h
        have := (List.mem_filter.mp hn).2
        have h2 : n.id ≠ "root" := by simpa using (of_decide_eq_true this).1
        exact h2 (by simpa using h)
      rw [h1]
      rw [filter_id_eq_of_nodup prev hnd r hrmem "root" hrid]
    · rw [List.filter_cons, if_neg (by simp [hrid, Ne.symm hnr, hnr])]
      rw [List.filter_append, hserver, List.nil_append]
      exact hediting hnr

theorem edit_window_preserved_edges
    (prevE loadedE : List Edge) (editingE : List String) (eid : String)
    (hmem : eid ∈ editingE) (hne : prevE ≠ []) :
    (processEdges prevE loadedE editingE false).filter (fun e => e.id == eid) =
      prevE.filter (fun e => e.id == eid) := by
  have hcond : ¬(prevE.length = 0 ∨ (false : Bool) = true) := by
    simp [List.length_eq_zero, hne]
  simp only [processEdges, if_neg hcond]
  rw [List.filter_append]
  have hserver : (loadedE.filter (fun e => decide (e.id ∉ editingE))).filter
      (fun e => e.id == eid) = [] := by
    rw [List.filter_eq_nil_iff]
    intro e he h
    have hnotin : e.id ∉ editingE := by simpa using (List.mem_filter.mp he).2
    exact hnotin ((show e.id = eid by simpa using h) ▸ hmem)
  rw [hserver, List.nil_append, List.filter_filter]
  apply List.filter_congr
  intro e _
  by_cases h : e.id = eid
  · simp [h, hmem]
  · simp [h]

/-- The locally edited node of the C1 counterexample. -/
def c1local : Node :=
  { id := "node-1", type := "outcomeNode", position := ⟨0, 0⟩, text := "local draft",
    cost := "", completed := false, isEditing := true }

/-- The remote version of the same node in the C1 counterexample. -/
def c1remote : Node :=
  { id := "node-1", type := "outcomeNode", position := ⟨0, 0⟩, text := "remote overwrite",
    cost := "", completed := false, isEditing := false }

/-- C1 counterexample: with the store holding exactly one (non-root) node
that is in the node editing set, a reconciliation of a remote snapshot
takes the wholesale-replacement branch (store holds at most one node) and
the merged result is the incoming snapshot version, not the locally held
version. -/
theorem edit_window_counterexample :
    processNodes [c1local] [c1remote] ["node-1"] false = [c1remote] ∧
    c1remote ≠ c1local := by
  constructor
  · decide
  · decide

/-- C1 amended: an id in the editing sets is protected from reconciliation
overwrite on the steady-state merge path: for edges whenever the store
holds at least one edge, for nodes whenever the store holds at least two
nodes (on the wholesale first-load path, store holding at most one node,
the editing sets are ignored and only the root entry is preserved). -/
theorem edit_window_preservation
    (prev loadedRaw : List Node) (prevE loadedE : List Edge)
    (editingN editingE : List String) (nid eid : String)
    (hnd : (prev.map Node.id).Nodup) (hn_mem : nid ∈ editingN)
    (hn_steady : 2 ≤ prev.length)
    (he_mem : eid ∈ editingE) (he_ne : prevE ≠ []) :
    (processNodes prev loadedRaw editingN false).filter (fun n => n.id == nid) =
      prev.filter (fun n => n.id == nid) ∧
    (processEdges prevE loadedE editingE false).filter (fun e => e.id == eid) =
      prevE.filter (fun e => e.id == eid) :=
  ⟨edit_window_preserved_nodes prev loadedRaw editingN nid hnd hn_mem hn_steady,
   edit_window_preserved_edges prevE loadedE editingE eid he_mem he_ne⟩

/-- The root node used in concrete reconciliation scenarios. -/
def rootNodeC : Node :=
  { id := "root", type := "rootNode", position := ⟨250, 50⟩, text := "", cost := "",
    completed := false, isEditing := false }

/-- Witness for the amended C1 at a concrete steady-state store. -/
theorem edit_window_preservation_witness :
    (processNodes [rootNodeC, c1local] [c1remote] ["node-1"] false).filter
        (fun n => n.id == "node-1") =
      [rootNodeC, c1local].filter (fun n => n.id == "node-1") ∧
    (processEdges c5edges [] ["edge-node-3-node-7"] false).filter
        (fun e => e.id == "edge-node-3-node-7") =
      c5edges.filter (fun e => e.id == "edge-node-3-node-7") :=
  edit_window_preservation [rootNodeC, c1local] [c1remote] c5edges []
    ["node-1"] ["edge-node-3-node-7"] "node-1" "edge-node-3-node-7"
    (by decide) (by decide) (by decide) (by decide) (by decide)

end EditWindow

section SaveScheduler

/-- Outcome of the synchronous entry checks of `saveGraph` before any
network activity. -/
inductive SaveDecision where
  | queued
  | deferEditing (delay : Nat)
  | deferThrottle (delay : Nat)
  | execute
deriving DecidableEq, Repr

/-- The entry checks of `saveGraph`, in source order: queue behind an
in-flight save (non-immediate only), defer 2 s while editing (non-immediate
only), throttle non-immediate saves to one per second measured from the
last successful save, otherwise execute. -/
def saveDecide (immediate isSaving editing : Bool) (now lastSave : Nat) : SaveDecision :=
  if isSaving = true ∧ immediate = false then .queued
  else if immediate = false ∧ editing = true then .deferEditing 2000
  else if immediate = false ∧ now - lastSave < 1000 then
    .deferThrottle (1000 - (now - lastSave))
  else .execute

/-- Save pipeline status visible to the page: `status` and the
unsaved-changes flag, plus the scheduler bookkeeping. -/
structure SaveSt where
  status : String
  dirty : Bool
  isSaving : Bool
  lastSaveTime : Nat
  queue : List (Bool × Nat)
deriving DecidableEq, Repr

/-- State changes applied when an execution starts: mark saving, clear the
unsaved-changes flag. -/
def execBegin (st : SaveSt) : SaveSt :=
  { st with isSaving := true, status := "saving", dirty := false }

/-- State changes applied when the remote write finishes: on success mark
saved, record the save time and pop one queued request (to be re-invoked
after 100 ms); on failure mark error and either schedule a retry after
`1000 * (retryCount + 1)` ms (immediate saves with fewer than 3 retries
made) or set the dirty flag with no further retry.  The second component is
the follow-up call scheduled, as (delay, immediate, retryCount). -/
def execFinish (immediate : Bool) (retryCount : Nat) (success : Bool) (now : Nat)
    (st : SaveSt) : SaveSt × Option (Nat × Bool × Nat) :=
  if success = true then
    let st1 := { st with lastSaveTime := now, status := "saved", isSaving := false }
    match st1.queue with
    | [] => (st1, none)
    | q :: rest => ({ st1 with queue := rest }, some (100, q.1, q.2))
  else
    let st1 := { st with status := "error", isSaving := false }
    if immediate = true ∧ retryCount < 3 then
      (st1, some (1000 * (retryCount + 1), true, retryCount + 1))
    else
      ({ st1 with dirty := true }, none)

/-- A chain of immediate save attempts driven by the retry scheduling:
each attempt runs with the retry count carried by the previous scheduled
retry; returns the final state and the list of retry delays used. -/
def runAttempts : List Bool → Nat → SaveSt → SaveSt × List Nat
  | [], _, st => (st, [])
  | outcome :: rest, rc, st =>
    match execFinish true rc outcome 0 (execBegin st) with
    | (st1, some (delay, _, rc1)) =>
      let r := runAttempts rest rc1 st1
      (r.1, delay :: r.2)
    | (st1, none) => (st1, [])

/-- Initial scheduler state with unsaved local changes. -/
def initSave : SaveSt :=
  { status := "saved", dirty := true, isSaving := false, lastSaveTime := 0, queue := [] }

/-- C3: every failing attempt sets status `error`; an immediate attempt
with fewer than 3 retries made schedules a retry after `1 s × attempt
number` without touching the dirty flag; otherwise the dirty flag is set
and nothing further is scheduled.  An immediate save failing twice then
succeeding ends `saved`, not dirty, with retry delays 1 s and 2 s. -/
theorem save_failure_retry_policy :
    (∀ (immediate : Bool) (rc now : Nat) (st : SaveSt),
      (execFinish immediate rc false now st).1.status = "error" ∧
      (immediate = true → rc < 3 →
        (execFinish immediate rc false now st).2 = some (1000 * (rc + 1), true, rc + 1) ∧
        (execFinish immediate rc false now st).1.dirty = st.dirty) ∧
      (¬(immediate = true ∧ rc < 3) →
        (execFinish immediate rc false now st).1.dirty = true ∧
        (execFinish immediate rc false now st).2 = none)) ∧
    ((runAttempts [false, false, true] 0 initSave).1.status = "saved" ∧
      (runAttempts [false, false, true] 0 initSave).1.dirty = false ∧
      (runAttempts [false, false, true] 0 initSave).2 = [1000, 2000]) := by
  constructor
  · intro immediate rc now st
    refine ⟨?_, ?_, ?_⟩
    · simp only [execFinish, Bool.false_eq_true, if_false]
      split <;> rfl
    · intro h1 h2
      simp only [execFinish, Bool.false_eq_true, if_false]
      rw [if_pos (And.intro h1 h2)]
      exact ⟨rfl, rfl⟩
    · intro h
      simp only [execFinish, Bool.false_eq_true, if_false]
      rw [if_neg h]
      exact ⟨rfl, rfl⟩
  · refine ⟨by decide, by decide, by decide⟩

/-- Witness for C3: the general failure clause evaluated at the first
failing attempt of the scenario. -/
theorem save_failure_retry_policy_witness :
    (execFinish true 0 false 0 initSave).1.status = "error" ∧
    (execFinish true 0 false 0 initSave).2 = some (1000, true, 1) := by
  refine ⟨(save_failure_retry_policy.1 true 0 0 initSave).1, ?_⟩
  have h := ((save_failure_retry_policy.1 true 0 0 initSave).2.1 rfl (by norm_num)).1
  simpa using h

/-- Scheduler state for the throttle timeline: time of the last successful
save and the pending deferred-save timer, if any. -/
structure ThrSt where
  lastSave : Nat
  pending : Option Nat
deriving DecidableEq, Repr

/-- One non-immediate `saveGraph` request at time `t` with no save in
flight and no active edits, under instantaneous successful writes: the
pending timer is cleared on entry; within 1 s of the last successful save
the request is rescheduled for the remainder of the window, otherwise it
executes.  Returns the new state and whether the save executed. -/
def requestSaveAt (t : Nat) (st : ThrSt) : ThrSt × Bool :=
  let st1 : ThrSt := { st with pending := none }
  if t - st1.lastSave < 1000 then
    ({ st1 with pending := some (t + (1000 - (t - st1.lastSave))) }, false)
  else
    ({ st1 with lastSave := t }, true)

/-- Times at which saves actually execute for a list of request times. -/
def runRequests : List Nat → ThrSt → List Nat
  | [], _ => []
  | t :: ts, st =>
    match requestSaveAt t st with
    | (st1, true) => t :: runRequests ts st1
    | (st1, false) => runRequests ts st1

/-- C4: a non-immediate request arriving less than 1 s after the last
successful save is deferred for the remainder of the window and never
executed, whatever the other flags; for non-immediate requests at
t = 0 / 0.2 / 0.5 s (offset 100000) only the first executes before
t = 1 s, the others being rescheduled to the end of the window. -/
theorem save_throttle_policy :
    (∀ (isSaving editing : Bool) (now lastSave : Nat),
      now - lastSave < 1000 →
      saveDecide false isSaving editing now lastSave ≠ SaveDecision.execute) ∧
    (∀ (now lastSave : Nat), now - lastSave < 1000 →
      saveDecide false false false now lastSave =
        SaveDecision.deferThrottle (1000 - (now - lastSave))) ∧
    (runRequests [100000, 100200, 100500] ⟨0, none⟩ = [100000] ∧
      requestSaveAt 100200 ⟨100000, none⟩ =
        ({ lastSave := 100000, pending := some 101000 }, false)) := by
  refine ⟨?_, ?_, by decide, by decide⟩
  · intro isSaving editing now lastSave h
    have hd : saveDecide false isSaving editing now lastSave = SaveDecision.queued ∨
        saveDecide false isSaving editing now lastSave = SaveDecision.deferEditing 2000 ∨
        saveDecide false isSaving editing now lastSave =
          SaveDecision.deferThrottle (1000 - (now - lastSave)) := by
      cases isSaving <;> cases editing
      · right; right; simp [saveDecide, h]
      · right; left; simp [saveDecide]
      · left; simp [saveDecide]
      · left; simp [saveDecide]
    rcases hd with h1 | h1 | h1 <;> rw [h1] <;> exact fun hx => nomatch hx
  · intro now lastSave h
    simp [saveDecide, h]

/-- Witness for C4: a non-immediate request 200 ms after a successful save
is deferred by 800 ms and not executed. -/
theorem save_throttle_policy_witness :
    saveDecide false false false 100200 100000 ≠ SaveDecision.execute ∧
    saveDecide false false false 100200 100000 = SaveDecision.deferThrottle 800 := by
  refine ⟨save_throttle_policy.1 false false 100200 100000 (by norm_num), ?_⟩
  have h := save_throttle_policy.2.1 100200 100000 (by norm_num)
  simpa using h

end SaveScheduler

section EditingTracker

/-- The editing tracker together with the pending deferred-save timer. -/
structure EditState where
  editingNodes : List String
  editingEdges : List String
  pendingSaveTimeout : Option Nat
deriving DecidableEq, Repr

/-- `startEditingNode`: cancel any pending scheduled save, then add the id
to the node editing set. -/
def startEditingNode (nodeId : String) (st : EditState) : EditState :=
  { st with pendingSaveTimeout := none, editingNodes := nodeId :: st.editingNodes }

/-- `onEdgeDoubleClick`: add the edge id to the edge editing set (the
pending save timer is left untouched by this handler). -/
def onEdgeDoubleClick (edgeId : String) (st : EditState) : EditState :=
  { st with editingEdges := edgeId :: st.editingEdges }

/-- `hasActiveEdits`: either editing set non-empty. -/
def hasActiveEdits (st : EditState) : Bool :=
  !st.editingNodes.isEmpty || !st.editingEdges.isEmpty

/-- C8 counterexample: beginning an edit on an edge leaves the pending
scheduled save timer in place, so a save scheduled before the edit began
still fires during the editing window. -/
theorem edge_edit_begin_counterexample :
    (onEdgeDoubleClick "edge-root-node-1"
      { editingNodes := [], editingEdges := [], pendingSaveTimeout := some 500 }
      ).pendingSaveTimeout ≠ none := by
  decide

/-- C8 amended: beginning an edit on a node cancels any pending scheduled
save timer; beginning an edit on an edge does not cancel the timer, but a
non-immediate save attempt firing during the edge's editing window is
rescheduled 2 s later by the editing guard rather than executed. -/
theorem edit_begin_save_timer_policy :
    (∀ (nodeId : String) (st : EditState),
      (startEditingNode nodeId st).pendingSaveTimeout = none) ∧
    (∀ (edgeId : String) (st : EditState),
      (onEdgeDoubleClick edgeId st).pendingSaveTimeout = st.pendingSaveTimeout) ∧
    (∀ (edgeId : String) (st : EditState) (isSaving : Bool) (now lastSave : Nat),
      isSaving = false →
      saveDecide false isSaving (hasActiveEdits (onEdgeDoubleClick edgeId st)) now lastSave =
        SaveDecision.deferEditing 2000) := by
  refine ⟨fun nodeId st => rfl, fun edgeId st => rfl, ?_⟩
  intro edgeId st isSaving now lastSave h
  subst h
  simp [saveDecide, hasActiveEdits, onEdgeDoubleClick]

/-- Witness for the amended C8 at a concrete state with a pending timer. -/
theorem edit_begin_save_timer_policy_witness :
    (startEditingNode "node-4" ⟨[], [], some 300⟩).pendingSaveTimeout = none ∧
    (onEdgeDoubleClick "edge-a" ⟨[], [], some 300⟩).pendingSaveTimeout = some 300 ∧
    saveDecide false false
        (hasActiveEdits (onEdgeDoubleClick "edge-a" ⟨[], [], some 300⟩)) 5000 0 =
      SaveDecision.deferEditing 2000 :=
  ⟨edit_begin_save_timer_policy.1 "node-4" ⟨[], [], some 300⟩,
   edit_begin_save_timer_policy.2.1 "edge-a" ⟨[], [], some 300⟩,
   edit_begin_save_timer_policy.2.2 "edge-a" ⟨[], [], some 300⟩ false 5000 0 rfl⟩

end EditingTracker

section LocalCache

/-- A raw durable-cache slot for a location: either content that fails to
parse, or a parsed record `{ location, graph, timestamp }`. -/
inductive StoredEntry where
  | malformed
  | valid (location : String) (nodes : List Node) (edges : List Edge) (timestamp : Nat)
deriving DecidableEq, Repr

/-- The durable key-value cache. -/
def LocalStorage : Type := List (String × StoredEntry)

/-- `localStorage.getItem`. -/
def getItem (store : List (String × StoredEntry)) (key : String) : Option StoredEntry :=
  (store.find? (fun kv => kv.1 == key)).map (fun kv => kv.2)

/-- `localStorage.removeItem`. -/
def removeItem (store : List (String × StoredEntry)) (key : String) :
    List (String × StoredEntry) :=
  store.filter (fun kv => !(kv.1 == key))

/-- 24 hours in milliseconds. -/
def dayMs : Nat := 24 * 60 * 60 * 1000

/-- `loadGraphFromLocalStorage`: read the cache slot; a missing entry or a
parse failure is a cache miss (parse failures are only logged, the slot is
left in place); a parsed entry younger than 24 h is returned; an older one
is removed and treated as absent.  Returns the data read (if any) and the
cache afterwards. -/
def loadGraphFromLocalStorage (store : List (String × StoredEntry)) (key : String)
    (now : Nat) : Option (String × List Node × List Edge × Nat) × List (String × StoredEntry) :=
  match getItem store key with
  | none => (none, store)
  | some StoredEntry.malformed => (none, store)
  | some (StoredEntry.valid loc ns es ts) =>
    if now - ts < dayMs then (some (loc, ns, es, ts), store)
    else (none, removeItem store key)

theorem getItem_removeItem (store : List (String × StoredEntry)) (key : String) :
    getItem (removeItem store key) key = none := by
  rw [getItem]
  have hfind : (removeItem store key).find? (fun kv => kv.1 == key) = none := by
    rw [List.find?_eq_none]
    intro kv hkv
    have := (List.mem_filter.mp hkv).2
    simpa using this
  rw [hfind]
  rfl

/-- C9 counterexample: a malformed cache entry is treated as a miss but is
not discarded: the slot still holds the malformed entry after the read. -/
theorem cache_corruption_counterexample :
    (loadGraphFromLocalStorage [("graph_7", StoredEntry.malformed)] "graph_7" 0).1 = none ∧
    getItem (loadGraphFromLocalStorage [("graph_7", StoredEntry.malformed)] "graph_7" 0).2
        "graph_7" = some StoredEntry.malformed := by
  constructor
  · rfl
  · rfl

/-- C9 amended: a cache entry at least 24 h old is treated as absent and
removed on read; a malformed entry is treated as a cache miss and the read
returns no data without raising, but the entry is left in the cache; a
missing entry reads as no data. -/
theorem cache_read_policy (store : List (String × StoredEntry)) (key : String) (now : Nat) :
    (∀ loc ns es ts, getItem store key = some (StoredEntry.valid loc ns es ts) →
      dayMs ≤ now - ts →
      (loadGraphFromLocalStorage store key now).1 = none ∧
      getItem (loadGraphFromLocalStorage store key now).2 key = none) ∧
    (getItem store key = some StoredEntry.malformed →
      (loadGraphFromLocalStorage store key now).1 = none ∧
      (loadGraphFromLocalStorage store key now).2 = store) ∧
    (getItem store key = none → (loadGraphFromLocalStorage store key now).1 = none) := by
  refine ⟨?_, ?_, ?_⟩
  · intro loc ns es ts h hage
    have hred : loadGraphFromLocalStorage store key now =
        (if now - ts < dayMs then (some (loc, ns, es, ts), store)
          else (none, removeItem store key)) := by
      rw [loadGraphFromLocalStorage, h]
    rw [hred, if_neg (by omega)]
    exact ⟨rfl, getItem_removeItem store key⟩
  · intro h
    have hred : loadGraphFromLocalStorage store key now = (none, store) := by
      rw [loadGraphFromLocalStorage, h]
    rw [hred]
    exact ⟨rfl, rfl⟩
  · intro h
    have hred : loadGraphFromLocalStorage store key now = (none, store) := by
      rw [loadGraphFromLocalStorage, h]
    rw [hred]

/-- Witness for the amended C9: a stale entry is removed, a malformed one
is kept, a missing one reads as nothing. -/
theorem cache_read_policy_witness :
    ((loadGraphFromLocalStorage [("graph_3", StoredEntry.valid "loc3" [] [] 0)] "graph_3"
        (dayMs + 5)).1 = none ∧
      getItem (loadGraphFromLocalStorage [("graph_3", StoredEntry.valid "loc3" [] [] 0)]
        "graph_3" (dayMs + 5)).2 "graph_3" = none) ∧
    ((loadGraphFromLocalStorage [("graph_7", StoredEntry.malformed)] "graph_7" 0).1 = none ∧
      (loadGraphFromLocalStorage [("graph_7", StoredEntry.malformed)] "graph_7" 0).2 =
        [("graph_7", StoredEntry.malformed)]) ∧
    (loadGraphFromLocalStorage [] "graph_9" 0).1 = none :=
  ⟨(cache_read_policy [("graph_3", StoredEntry.valid "loc3" [] [] 0)] "graph_3"
      (dayMs + 5)).1 "loc3" [] [] 0 rfl (by simp),
   (cache_read_policy [("graph_7", StoredEntry.malformed)] "graph_7" 0).2.1 rfl,
   (cache_read_policy [] "graph_9" 0).2.2 rfl⟩

end LocalCache

section Descendants

/-- The recursive `getDescendants` walk of `deleteNode`, indexed by
recursion fuel: the children of `id` are the targets of edges leaving it;
each child contributes itself followed by its own descendants.  The source
recursion carries no cycle guard; the fuel makes the embedding total and
equals the source on every input where the source recursion terminates. -/
def getDescendants : Nat → String → List Edge → List String
  | 0, _, _ => []
  | fuel + 1, id, edges =>
    let children := (edges.filter (fun e => e.source == id)).map (fun e => e.target)
    children ++ (children.map (fun c => getDescendants fuel c edges)).flatten

/-- One parent-to-child step along the current edge set. -/
def edgeStep (edges : List Edge) (x y : String) : Prop :=
  ∃ e ∈ edges, e.source = x ∧ e.target = y

/-- The vertices of `l` form a consecutive walk starting at `x`. -/
def chainFrom (edges : List Edge) : String → List String → Prop
  | _, [] => True
  | x, c :: l => edgeStep edges x c ∧ chainFrom edges c l

/-- Last vertex of a walk, with the start as default. -/
def endOf (x : String) : List String → String
  | [] => x
  | c :: l => endOf c l

/-- `y` is reachable from `x` along at least one edge. -/
def reachPlus (edges : List Edge) (x y : String) : Prop :=
  ∃ l, l ≠ [] ∧ chainFrom edges x l ∧ endOf x l = y

/-- No vertex reachable from `start` (including `start` itself) lies on a
directed cycle. -/
def acyclicFrom (edges : List Edge) (start : String) : Prop :=
  ∀ v, (v = start ∨ reachPlus edges start v) → ¬ reachPlus edges v v

theorem endOf_append (x : String) (l₁ l₂ : List String) :
    endOf x (l₁ ++ l₂) = endOf (endOf x l₁) l₂ := by
  induction l₁ generalizing x with
  | nil => rfl
  | cons c t ih => exact ih c

theorem endOf_concat (x a : String) (l : List String) : endOf x (l ++ [a]) = a := by
  rw [endOf_append]
  rfl

theorem chainFrom_append (edges : List Edge) (x : String) (l₁ l₂ : List String) :
    chainFrom edges x (l₁ ++ l₂) ↔
      chainFrom edges x l₁ ∧ chainFrom edges (endOf x l₁) l₂ := by
  induction l₁ generalizing x with
  | nil => simp [chainFrom, endOf]
  | cons c t ih =>
    simp only [List.cons_append, chainFrom, endOf, and_assoc]
    exact and_congr_right fun _ => ih c

theorem chainFrom_mem_target (edges : List Edge) (x : String) (l : List String)
    (h : chainFrom edges x l) : ∀ v ∈ l, ∃ e ∈ edges, e.target = v := by
  induction l generalizing x with
  | nil => intro v hv; cases hv
  | cons c t ih =>
    intro v hv
    rcases List.mem_cons.mp hv with rfl | hv
    · obtain ⟨e, he, _, het⟩ := h.1
      exact ⟨e, he, het⟩
    · exact ih c h.2 v hv

theorem exists_filter_source (edges : List Edge) (x y : String) :
    (∃ e ∈ edges.filter (fun e => e.source == x), e.target = y) ↔ edgeStep edges x y := by
  simp only [List.mem_filter, edgeStep]
  constructor
  · rintro ⟨e, ⟨he, hs⟩, ht⟩
    exact ⟨e, he, by simpa using hs, ht⟩
  · rintro ⟨e, he, hs, ht⟩
    exact ⟨e, ⟨he, by simpa using hs⟩, ht⟩

theorem mem_children (edges : List Edge) (x y : String) :
    (y ∈ (edges.filter (fun e => e.source == x)).map (fun e => e.target)) ↔
      edgeStep edges x y := by
  rw [List.mem_map]
  rw [show (∃ e, e ∈ edges.filter (fun e => e.source == x) ∧ e.target = y) ↔
      (∃ e ∈ edges.filter (fun e => e.source == x), e.target = y) from Iff.rfl]
  exact exists_filter_source edges x y

theorem mem_getDescendants (edges : List Edge) : ∀ (fuel : Nat) (x y : String),
    y ∈ getDescendants fuel x edges ↔
      ∃ l, l ≠ [] ∧ chainFrom edges x l ∧ l.length ≤ fuel ∧ endOf x l = y := by
  intro fuel
  induction fuel with
  | zero =>
    intro x y
    simp only [getDescendants, List.not_mem_nil, false_iff]
    rintro ⟨l, hne, _, hlen, _⟩
    exact hne (List.length_eq_zero.mp (Nat.le_zero.mp hlen))
  | succ fuel ih =>
    intro x y
    simp only [getDescendants, List.mem_append, List.mem_flatten, List.mem_map]
    constructor
    · rintro (hy | ⟨dl, ⟨c, hc, rfl⟩, hydl⟩)
      · exact ⟨[y], by simp, ⟨(exists_filter_source edges x y).mp hy, trivial⟩, by simp, rfl⟩
      · obtain ⟨l, hne, hch, hlen, hend⟩ := (ih c y).mp hydl
        exact ⟨c :: l, by simp, ⟨(exists_filter_source edges x c).mp hc, hch⟩,
          by simpa using Nat.succ_le_succ hlen,
          by cases l with | nil => exact absurd rfl hne | cons a t => exact hend⟩
    · rintro ⟨l, hne, hch, hlen, hend⟩
      cases l with
      | nil => exact absurd rfl hne
      | cons c t =>
        cases t with
        | nil =>
          left
          have : c = y := hend
          exact this ▸ (exists_filter_source edges x c).mpr hch.1
        | cons a t2 =>
          right
          refine ⟨getDescendants fuel c edges,
            ⟨c, (exists_filter_source edges x c).mpr hch.1, rfl⟩, ?_⟩
          exact (ih c y).mpr ⟨a :: t2, by simp, hch.2, by simpa using hlen, hend⟩

theorem exists_dup_decomp (l : List String) (h : ¬ l.Nodup) :
    ∃ a l₁ l₂ l₃, l = l₁ ++ a :: l₂ ++ a :: l₃ := by
  induction l with
  | nil => exact absurd List.nodup_nil h
  | cons b t ih =>
    by_cases hb : b ∈ t
    · obtain ⟨s, u, rfl⟩ := List.append_of_mem hb
      exact ⟨b, [], s, u, rfl⟩
    · have hnt : ¬ t.Nodup := by
        intro hnd
        exact h (List.nodup_cons.mpr ⟨hb, hnd⟩)
      obtain ⟨a, l₁, l₂, l₃, rfl⟩ := ih hnt
      exact ⟨a, b :: l₁, l₂, l₃, rfl⟩

theorem nodup_chain_length_le (edges : List Edge) (x : String) (l : List String)
    (hc : chainFrom edges x l) (hnd : l.Nodup) : l.length ≤ edges.length := by
  have hsub : l ⊆ edges.map (fun e => e.target) := by
    intro v hv
    obtain ⟨e, he, ht⟩ := chainFrom_mem_target edges x l hc v hv
    exact List.mem_map.mpr ⟨e, he, ht⟩
  calc l.length ≤ (edges.map (fun e => e.target)).length :=
        (List.subperm_of_subset hnd hsub).length_le
    _ = edges.length := List.length_map edges _

theorem chain_shorten (edges : List Edge) (x : String) : ∀ (n : Nat) (l : List String),
    l.length = n → chainFrom edges x l → l ≠ [] →
      ∃ m, m ≠ [] ∧ chainFrom edges x m ∧ m.length ≤ edges.length ∧ endOf x m = endOf x l := by
  intro n
  induction n using Nat.strong_induction_on with
  | _ n ihn =>
    intro l hlen hc hne
    by_cases hshort : l.length ≤ edges.length
    · exact ⟨l, hne, hc, hshort, rfl⟩
    · have hnd : ¬ l.Nodup := by
        intro hnd
        exact hshort (nodup_chain_length_le edges x l hc hnd)
      obtain ⟨a, l₁, l₂, l₃, rfl⟩ := exists_dup_decomp l hnd
      have hsplit : l₁ ++ a :: l₂ ++ a :: l₃ = (l₁ ++ [a]) ++ ((l₂ ++ [a]) ++ l₃) := by
        simp
      set l' : List String := (l₁ ++ [a]) ++ l₃ with hl'
      have hc1 : chainFrom edges x (l₁ ++ [a]) ∧
          chainFrom edges a ((l₂ ++ [a]) ++ l₃) := by
        have := (chainFrom_append edges x (l₁ ++ [a]) ((l₂ ++ [a]) ++ l₃)).mp
          (by rw [← hsplit]; exact hc)
        rwa [endOf_concat] at this
      have hc2 : chainFrom edges a (l₂ ++ [a]) ∧ chainFrom edges a l₃ := by
        have := (chainFrom_append edges a (l₂ ++ [a]) l₃).mp hc1.2
        rwa [endOf_concat] at this
      have hcl' : chainFrom edges x l' := by
        rw [hl', chainFrom_append, endOf_concat]
        exact ⟨hc1.1, hc2.2⟩
      have hendeq : endOf x l' = endOf x (l₁ ++ a :: l₂ ++ a :: l₃) := by
        rw [hl', hsplit]
        simp [endOf_append, endOf]
      have hlt : l'.length < n := by
        rw [← hlen, hl']
        simp only [List.length_append, List.length_cons, List.length_nil]
        omega
      obtain ⟨m, hmne, hmc, hmlen, hmend⟩ :=
        ihn l'.length hlt l' rfl hcl' (by rw [hl']; simp)
      exact ⟨m, hmne, hmc, hmlen, hmend.trans hendeq⟩

theorem reachPlus_iff_mem (edges : List Edge) (x y : String) :
    reachPlus edges x y ↔ y ∈ getDescendants (edges.length + 1) x edges := by
  constructor
  · rintro ⟨l, hne, hc, hend⟩
    obtain ⟨m, hmne, hmc, hmlen, hmend⟩ := chain_shorten edges x l.length l rfl hc hne
    exact (mem_getDescendants edges (edges.length + 1) x y).mpr
      ⟨m, hmne, hmc, by omega, hmend.trans hend⟩
  · intro h
    obtain ⟨l, hne, hc, _, hend⟩ := (mem_getDescendants edges (edges.length + 1) x y).mp h
    exact ⟨l, hne, hc, hend⟩

/-- Walks from `x` are no longer than `d`. -/
def boundedFrom (edges : List Edge) (x : String) (d : Nat) : Prop :=
  ∀ l, chainFrom edges x l → l.length ≤ d

theorem getDescendants_stable (edges : List Edge) : ∀ (d : Nat) (x : String),
    boundedFrom edges x d → ∀ f, d ≤ f →
      getDescendants f x edges = getDescendants d x edges := by
  intro d
  induction d with
  | zero =>
    intro x hb f _
    have hch : (edges.filter (fun e => e.source == x)).map (fun e => e.target) = [] := by
      rw [List.eq_nil_iff_forall_not_mem]
      intro c hc
      have : chainFrom edges x [c] := ⟨(mem_children edges x c).mp hc, trivial⟩
      simpa using hb [c] this
    cases f with
    | zero => rfl
    | succ f =>
      simp only [getDescendants, hch, List.map_nil, List.flatten_nil, List.append_nil]
  | succ d ih =>
    intro x hb f hf
    cases f with
    | zero => omega
    | succ f =>
      simp only [getDescendants]
      have hmaps : ∀ c ∈ (edges.filter (fun e => e.source == x)).map (fun e => e.target),
          getDescendants f c edges = getDescendants d c edges := by
        intro c hc
        have hbc : boundedFrom edges c d := by
          intro l hl
          have : chainFrom edges x (c :: l) := ⟨(mem_children edges x c).mp hc, hl⟩
          have := hb (c :: l) this
          simpa using this
        exact ih c hbc f (by omega)
      rw [List.map_congr_left hmaps]

theorem boundedFrom_of_acyclic (edges : List Edge) (start : String)
    (hac : acyclicFrom edges start) : boundedFrom edges start edges.length := by
  intro l hc
  by_contra hl
  push_neg at hl
  have hnd : ¬ l.Nodup := by
    intro hnd
    exact absurd (nodup_chain_length_le edges start l hc hnd) (by omega)
  obtain ⟨a, l₁, l₂, l₃, rfl⟩ := exists_dup_decomp l hnd
  have hsplit : l₁ ++ a :: l₂ ++ a :: l₃ = (l₁ ++ [a]) ++ ((l₂ ++ [a]) ++ l₃) := by
    simp
  have hc1 : chainFrom edges start (l₁ ++ [a]) ∧
      chainFrom edges a ((l₂ ++ [a]) ++ l₃) := by
    have := (chainFrom_append edges start (l₁ ++ [a]) ((l₂ ++ [a]) ++ l₃)).mp
      (by rw [← hsplit]; exact hc)
    rwa [endOf_concat] at this
  have hc2 : chainFrom edges a (l₂ ++ [a]) :=
    ((chainFrom_append edges a (l₂ ++ [a]) l₃).mp hc1.2).1
  have hreach : a = start ∨ reachPlus edges start a :=
    Or.inr ⟨l₁ ++ [a], by simp, hc1.1, endOf_concat start a l₁⟩
  exact hac a hreach ⟨l₂ ++ [a], by simp, hc2, endOf_concat a a l₂⟩

theorem mem_of_endOf_chain (x : String) (l : List String)
    (hne : l ≠ []) : endOf x l ∈ l := by
  induction l generalizing x with
  | nil => exact absurd rfl hne
  | cons c t ih =>
    cases t with
    | nil => exact List.mem_singleton.mpr rfl
    | cons a t2 => exact List.mem_cons_of_mem c (ih c (by simp))

/-- Sufficient finite check for acyclicity from a start vertex: neither the
start nor any edge target is among its own descendants. -/
theorem acyclicFrom_of_check (edges : List Edge) (start : String)
    (hstart : start ∉ getDescendants (edges.length + 1) start edges)
    (htargets : ∀ e ∈ edges, e.target ∉ getDescendants (edges.length + 1) e.target edges) :
    acyclicFrom edges start := by
  intro v hv hcyc
  rcases hv with rfl | hreach
  · exact hstart ((reachPlus_iff_mem edges v v).mp hcyc)
  · obtain ⟨l, hne, hc, hend⟩ := hreach
    have hv_mem : v ∈ l := hend ▸ mem_of_endOf_chain start l hne
    obtain ⟨e, he, hev⟩ := chainFrom_mem_target edges start l hc v hv_mem
    exact htargets e he (hev ▸ (reachPlus_iff_mem edges v v).mp hcyc)

/-- A self-loop edge, to show the walk does not stabilize on cyclic input. -/
def selfLoopEdge : Edge :=
  { id := "edge-a-a", source := "a", target := "a", text := "", completed := false }

/-- C10: on every edge set whose reachability from the start id is acyclic,
the recursive descendant walk terminates: the fuel-indexed embedding is
already stable at fuel `edges.length`, so the recursion depth is bounded
and the walk returns a (finite) list.  Acyclicity is required: with a
single self-loop the walk keeps growing with the available depth. -/
theorem descendant_walk_termination :
    (∀ (edges : List Edge) (start : String) (f : Nat),
      acyclicFrom edges start → edges.length ≤ f →
      getDescendants f start edges = getDescendants edges.length start edges) ∧
    getDescendants 2 "a" [selfLoopEdge] ≠ getDescendants 1 "a" [selfLoopEdge] := by
  constructor
  · intro edges start f hac hf
    exact getDescendants_stable edges edges.length start
      (boundedFrom_of_acyclic edges start hac) f hf
  · decide

/-- Witness for C10 on the concrete acyclic 2-edge set. -/
theorem descendant_walk_termination_witness :
    getDescendants 7 "node-3" c5edges = getDescendants c5edges.length "node-3" c5edges :=
  descendant_walk_termination.1 c5edges "node-3" 7
    (acyclicFrom_of_check c5edges "node-3" (by decide) (by decide)) (by decide)

end Descendants

section DeleteNode

/-- `deleteNode`: collect the ids to delete (the invoked node followed by
the recursive descendant walk over the current edge set), drop those nodes,
and drop every edge whose source or target is among them.  The walk runs
with fuel `edges.length + 1`, which equals the unbounded source recursion
on every acyclic input. -/
def deleteNode (nodeId : String) (nodes : List Node) (edges : List Edge) :
    List Node × List Edge :=
  let toDelete := nodeId :: getDescendants (edges.length + 1) nodeId edges
  (nodes.filter (fun n => decide (n.id ∉ toDelete)),
   edges.filter (fun e => decide (e.source ∉ toDelete) && decide (e.target ∉ toDelete)))

theorem mem_toDelete (nodeId : String) (edges : List Edge) (y : String) :
    y ∈ nodeId :: getDescendants (edges.length + 1) nodeId edges ↔
      y = nodeId ∨ reachPlus edges nodeId y := by
  simp only [List.mem_cons]
  exact or_congr Iff.rfl (reachPlus_iff_mem edges nodeId y).symm

/-- C2 counterexample: `deleteNode` itself performs no root check: invoked
with the root id it removes the root node from the store. -/
theorem root_deletion_counterexample :
    rootNodeC.id = "root" ∧ (deleteNode "root" [rootNodeC] []).1 = [] := by
  constructor
  · rfl
  · rfl

/-- C2 amended: on an edge set acyclic from the invoked id, `deleteNode`
removes exactly the invoked node plus every node reachable from it along
outgoing edges, removes exactly the edges touching that removed set, and
leaves everything else in place; the function itself has no root guard —
the root survives only because the delete affordance is absent on the root
node and, provided no edge targets the root, a deletion invoked on a
non-root id never reaches it. -/
theorem delete_node_cascade
    (nodeId : String) (nodes : List Node) (edges : List Edge)
    (_hac : acyclicFrom edges nodeId) :
    (∀ n, n ∈ (deleteNode nodeId nodes edges).1 ↔
      n ∈ nodes ∧ ¬(n.id = nodeId ∨ reachPlus edges nodeId n.id)) ∧
    (∀ e, e ∈ (deleteNode nodeId nodes edges).2 ↔
      e ∈ edges ∧ ¬(e.source = nodeId ∨ reachPlus edges nodeId e.source) ∧
        ¬(e.target = nodeId ∨ reachPlus edges nodeId e.target)) ∧
    (nodeId ≠ "root" → (∀ e ∈ edges, e.target ≠ "root") →
      ∀ n ∈ nodes, n.id = "root" → n ∈ (deleteNode nodeId nodes edges).1) := by
  have hnode : ∀ n, n ∈ (deleteNode nodeId nodes edges).1 ↔
      n ∈ nodes ∧ ¬(n.id = nodeId ∨ reachPlus edges nodeId n.id) := by
    intro n
    simp only [deleteNode, List.mem_filter, decide_eq_true_eq]
    rw [mem_toDelete]
  refine ⟨hnode, ?_, ?_⟩
  · intro e
    simp only [deleteNode, List.mem_filter, Bool.and_eq_true, decide_eq_true_eq]
    simp only [mem_toDelete]
  · intro hroot htargets n hn hid
    refine (hnode n).mpr ⟨hn, ?_⟩
    rw [hid]
    rintro (h | h)
    · exact hroot h.symm
    · obtain ⟨l, hne, hc, hend⟩ := h
      obtain ⟨e, he, het⟩ := chainFrom_mem_target edges nodeId l hc "root"
        (hend ▸ mem_of_endOf_chain nodeId l hne)
      exact htargets e he het

/-- Demo store for the C2 witness: root plus a two-node chain and a spare
node. -/
def demoNodes : List Node :=
  [ rootNodeC, c1local,
    { id := "node-2", type := "outcomeNode", position := ⟨100, 200⟩, text := "child",
      cost := "", completed := false, isEditing := false },
    { id := "node-3", type := "outcomeNode", position := ⟨300, 200⟩, text := "spare",
      cost := "", completed := false, isEditing := false } ]

/-- Demo edge set for the C2 witness: one edge from `node-1` to `node-2`. -/
def demoEdges : List Edge :=
  [ { id := "edge-node-1-node-2", source := "node-1", target := "node-2",
      text := "", completed := false } ]

/-- Witness for the amended C2: deleting `node-1` in the demo store leaves
the root in place. -/
theorem delete_node_cascade_witness :
    rootNodeC ∈ (deleteNode "node-1" demoNodes demoEdges).1 :=
  (delete_node_cascade "node-1" demoNodes demoEdges
    (acyclicFrom_of_check demoEdges "node-1" (by decide) (by decide))).2.2
    (by decide) (by decide) rootNodeC (by decide) rfl

end DeleteNode

section ConnectionBuilder

/-- The local graph state the builder operates on. -/
structure GraphState where
  nodes : List Node
  edges : List Edge
  counter : Nat
deriving DecidableEq, Repr

/-- The fresh outcome node created by the builder (blank data, edit flag
off). -/
def mkOutcomeNode (nid : String) (pos : Pos) : Node :=
  { id := nid, type := "outcomeNode", position := pos, text := "", cost := "",
    completed := false, isEditing := false }

/-- The edge created by the builder, with id derived deterministically from
its endpoints. -/
def mkBuilderEdge (src tgt : String) : Edge :=
  { id := "edge-" ++ src ++ "-" ++ tgt, source := src, target := tgt,
    text := "", completed := false }

/-- `onConnect`: the next id is always allocated (the counter increment is
issued before the source check); if the source node resolves, a new child
node is laid out below it (220 px per existing child, 100 px to the left)
and an edge from the source to the new node is appended. -/
def onConnect (src : String) (s : GraphState) : GraphState :=
  match s.nodes.find? (fun n => n.id == src) with
  | none => { s with counter := s.counter + 1 }
  | some sourceNode =>
    let childrenCount := (s.edges.filter (fun e => e.source == src)).length
    { nodes := s.nodes ++ [mkOutcomeNode (mkNodeId s.counter)
        ⟨sourceNode.position.x + (childrenCount : Int) * 220 - 100,
         sourceNode.position.y + 200⟩],
      edges := s.edges ++ [mkBuilderEdge src (mkNodeId s.counter)],
      counter := s.counter + 1 }

/-- `onConnectEnd`: with no resolved start node the gesture is rejected;
with the release on a node or a connection handle nothing is created by
this handler; on empty canvas a new outcome node at the release position
plus an edge from the start node are appended and the counter advances. -/
def onConnectEnd (sourceOpt : Option String) (targetIsNode targetIsHandle : Bool)
    (releasePos : Pos) (s : GraphState) : GraphState :=
  match sourceOpt with
  | none => s
  | some src =>
    if targetIsNode = false ∧ targetIsHandle = false then
      { nodes := s.nodes ++ [mkOutcomeNode (mkNodeId s.counter) releasePos],
        edges := s.edges ++ [mkBuilderEdge src (mkNodeId s.counter)],
        counter := s.counter + 1 }
    else s

/-- A user gesture handled by the connection builder. -/
inductive BuilderOp where
  | connect (src : String)
  | connectEnd (sourceOpt : Option String) (targetIsNode targetIsHandle : Bool)
      (releasePos : Pos)
deriving DecidableEq, Repr

/-- Apply one builder gesture. -/
def applyOp (s : GraphState) : BuilderOp → GraphState
  | .connect src => onConnect src s
  | .connectEnd so tn th p => onConnectEnd so tn th p s

/-- Apply a sequence of builder gestures. -/
def applyOps (ops : List BuilderOp) (s : GraphState) : GraphState :=
  ops.foldl applyOp s

/-- Every edge target of canonical `node-<k>` form stays below the
counter. -/
def targetsBelowCounter (s : GraphState) : Prop :=
  ∀ e ∈ s.edges, ∀ k, e.target = mkNodeId k → k < s.counter

/-- No two edges share the same ordered (source, target) pair. -/
def pairsDistinct (s : GraphState) : Prop :=
  s.edges.Pairwise (fun a b => a.source ≠ b.source ∨ a.target ≠ b.target)

/-- Every edge is inherited from the base state or carries the canonical
endpoint-derived id. -/
def edgesCanonicalFrom (s0 s : GraphState) : Prop :=
  ∀ e ∈ s.edges, e ∈ s0.edges ∨ e.id = "edge-" ++ e.source ++ "-" ++ e.target

theorem targetsBelowCounter_of_suffix (s : GraphState)
    (h : ∀ e ∈ s.edges, nodeSuffix e.target < s.counter) : targetsBelowCounter s := by
  intro e he k hk
  have := h e he
  rwa [hk, nodeSuffix_mkNodeId] at this

theorem append_edge_invariants (s : GraphState) (src : String)
    (nodes2 : List Node)
    (h1 : targetsBelowCounter s) (h2 : pairsDistinct s) :
    targetsBelowCounter ⟨nodes2, s.edges ++ [mkBuilderEdge src (mkNodeId s.counter)],
        s.counter + 1⟩ ∧
      pairsDistinct ⟨nodes2, s.edges ++ [mkBuilderEdge src (mkNodeId s.counter)],
        s.counter + 1⟩ := by
  constructor
  · intro e he k hk
    rcases List.mem_append.mp he with he | he
    · exact Nat.lt_succ_of_lt (h1 e he k hk)
    · rw [List.mem_singleton] at he
      subst he
      have hck : s.counter = k := mkNodeId_inj hk
      show k < s.counter + 1
      omega
  · show List.Pairwise _ (s.edges ++ [mkBuilderEdge src (mkNodeId s.counter)])
    rw [List.pairwise_append]
    refine ⟨h2, List.pairwise_singleton _ _, ?_⟩
    intro a ha b hb
    rw [List.mem_singleton] at hb
    subst hb
    right
    intro hcontra
    have : s.counter < s.counter := h1 a ha s.counter hcontra
    omega

theorem applyOp_invariants (s0 s : GraphState) (op : BuilderOp)
    (h1 : targetsBelowCounter s) (h2 : pairsDistinct s) (h3 : edgesCanonicalFrom s0 s) :
    targetsBelowCounter (applyOp s op) ∧ pairsDistinct (applyOp s op) ∧
      edgesCanonicalFrom s0 (applyOp s op) := by
  cases op with
  | connect src =>
    simp only [applyOp, onConnect]
    cases hfind : s.nodes.find? (fun n => n.id == src) with
    | none =>
      refine ⟨?_, h2, h3⟩
      intro e he k hk
      exact Nat.lt_succ_of_lt (h1 e he k hk)
    | some sourceNode =>
      obtain ⟨ha, hb⟩ := append_edge_invariants s src _ h1 h2
      refine ⟨ha, hb, ?_⟩
      intro e he
      rcases List.mem_append.mp he with he | he
      · exact h3 e he
      · rw [List.mem_singleton] at he
        subst he
        right
        rfl
  | connectEnd so tn th p =>
    cases so with
    | none => exact ⟨h1, h2, h3⟩
    | some src =>
      simp only [applyOp, onConnectEnd]
      by_cases hcond : tn = false ∧ th = false
      · rw [if_pos hcond]
        obtain ⟨ha, hb⟩ := append_edge_invariants s src _ h1 h2
        refine ⟨ha, hb, ?_⟩
        intro e he
        rcases List.mem_append.mp he with he | he
        · exact h3 e he
        · rw [List.mem_singleton] at he
          subst he
          right
          rfl
      · rw [if_neg hcond]
        exact ⟨h1, h2, h3⟩

theorem applyOps_invariants (s0 : GraphState) (ops : List BuilderOp)
    (h1 : targetsBelowCounter s0) (h2 : pairsDistinct s0) :
    targetsBelowCounter (applyOps ops s0) ∧ pairsDistinct (applyOps ops s0) ∧
      edgesCanonicalFrom s0 (applyOps ops s0) := by
  suffices h : ∀ s, targetsBelowCounter s → pairsDistinct s → edgesCanonicalFrom s0 s →
      targetsBelowCounter (applyOps ops s) ∧ pairsDistinct (applyOps ops s) ∧
        edgesCanonicalFrom s0 (applyOps ops s) by
    exact h s0 h1 h2 (fun e he => Or.inl he)
  induction ops with
  | nil => intro s ha hb hc; exact ⟨ha, hb, hc⟩
  | cons op rest ih =>
    intro s ha hb hc
    obtain ⟨ha2, hb2, hc2⟩ := applyOp_invariants s0 s op ha hb hc
    exact ih (applyOp s op) ha2 hb2 hc2

/-- C6: every edge created by the connection builder carries the id
`edge-<source>-<target>` derived from its endpoints, and from any state
whose edges have pairwise-distinct ordered endpoint pairs and whose
canonical `node-<k>` targets sit below the id counter — as a wholesale
load establishes — any sequence of builder gestures preserves at-most-one
edge per ordered (source, target) pair: no duplicate pair is ever created
because every built edge targets a fresh node id. -/
theorem builder_edge_id_and_uniqueness
    (s0 : GraphState) (ops : List BuilderOp)
    (h1 : targetsBelowCounter s0) (h2 : pairsDistinct s0) :
    (∀ e ∈ (applyOps ops s0).edges, e ∈ s0.edges ∨
      e.id = "edge-" ++ e.source ++ "-" ++ e.target) ∧
    pairsDistinct (applyOps ops s0) ∧
    targetsBelowCounter (applyOps ops s0) := by
  obtain ⟨ha, hb, hc⟩ := applyOps_invariants s0 ops h1 h2
  exact ⟨hc, hb, ha⟩

/-- Witness for C6: two gestures on the freshly loaded 3-node/2-edge store
keep the ordered endpoint pairs pairwise distinct. -/
theorem builder_edge_id_and_uniqueness_witness :
    pairsDistinct (applyOps
      [BuilderOp.connect "node-3",
       BuilderOp.connectEnd (some "node-7") false false ⟨40, 60⟩]
      ⟨c5nodes, c5edges, 8⟩) :=
  (builder_edge_id_and_uniqueness ⟨c5nodes, c5edges, 8⟩
    [BuilderOp.connect "node-3",
     BuilderOp.connectEnd (some "node-7") false false ⟨40, 60⟩]
    (targetsBelowCounter_of_suffix ⟨c5nodes, c5edges, 8⟩ (by decide))
    (by unfold pairsDistinct; decide)).2.1

/-- C7 counterexample: a connection released on another node's handle runs
the `onConnect` path, which synthesizes a brand-new child node in addition
to the edge — it never creates "only the edge": the node count grows. -/
theorem connect_creates_node_counterexample :
    (onConnect "node-1" ⟨[c1local], [], 5⟩).nodes.length = 2 ∧
    (onConnect "node-1" ⟨[c1local], [], 5⟩).edges.length = 1 := by
  constructor
  · rfl
  · rfl

/-- C7 amended: a gesture without a resolved start node is rejected by
both handlers (`onConnectEnd` leaves the state unchanged; `onConnect`
only burns the already-issued counter increment); a release on empty
canvas synthesizes one outcome node at the release coordinates plus one
edge from the start node; a release on a node or handle creates nothing in
`onConnectEnd`, while the handle-connect path `onConnect` creates a new
child node plus an edge to it — never only the edge. -/
theorem connection_gesture_classification
    (src : String) (tn th : Bool) (pos : Pos) (s : GraphState) :
    (onConnectEnd none tn th pos s = s) ∧
    (tn = false → th = false →
      onConnectEnd (some src) tn th pos s =
        { nodes := s.nodes ++ [mkOutcomeNode (mkNodeId s.counter) pos],
          edges := s.edges ++ [mkBuilderEdge src (mkNodeId s.counter)],
          counter := s.counter + 1 }) ∧
    (tn = true ∨ th = true → onConnectEnd (some src) tn th pos s = s) ∧
    (s.nodes.find? (fun n => n.id == src) = none →
      onConnect src s = { s with counter := s.counter + 1 }) ∧
    (∀ sourceNode, s.nodes.find? (fun n => n.id == src) = some sourceNode →
      (onConnect src s).nodes = s.nodes ++ [mkOutcomeNode (mkNodeId s.counter)
          ⟨sourceNode.position.x +
              ((s.edges.filter (fun e => e.source == src)).length : Int) * 220 - 100,
            sourceNode.position.y + 200⟩] ∧
      (onConnect src s).edges = s.edges ++ [mkBuilderEdge src (mkNodeId s.counter)]) := by
  refine ⟨rfl, ?_, ?_, ?_, ?_⟩
  · intro h1 h2
    simp only [onConnectEnd]
    rw [if_pos (And.intro h1 h2)]
  · intro h
    simp only [onConnectEnd]
    rw [if_neg ?_]
    rintro ⟨hf1, hf2⟩
    rcases h with h | h
    · rw [h] at hf1; cases hf1
    · rw [h] at hf2; cases hf2
  · intro h
    simp only [onConnect, h]
  · intro sourceNode h
    simp only [onConnect, h]
    constructor <;> trivial

/-- Witness for the amended C7: an empty-canvas release on the demo store
appends exactly the synthesized node and its canonical edge. -/
theorem connection_gesture_classification_witness :
    onConnectEnd (some "node-1") false false ⟨40, 60⟩ ⟨[c1local], [], 5⟩ =
      { nodes := [c1local] ++ [mkOutcomeNode (mkNodeId 5) ⟨40, 60⟩],
        edges := [] ++ [mkBuilderEdge "node-1" (mkNodeId 5)],
        counter := 6 } :=
  (connection_gesture_classification "node-1" false false ⟨40, 60⟩
    ⟨[c1local], [], 5⟩).2.1 rfl rfl

end ConnectionBuilder

end TaintedJournal
